import Mathlib

/-!
Verification development for the `seq2` repository: a shallow embedding of
the lexer (`src/lexer.rs`), the token/span model (`src/tokens.rs`), the
parser (`src/parser.rs`), and a spec-modelled range materializer, together
with theorems settling the frozen claims about the code.

Conventions of the embedding:
* `u16`/`usize` character positions are modelled as `Nat` (1-indexed, as in
  the source); no position arithmetic in the source can underflow on the
  reachable inputs we consider, and values stay far below the machine bounds.
* Rust `Result` is `Except`; a `panic!`/`todo!`/`unreachable!`/index-out-of-
  bounds abnormal termination is the `panicked` outcome; possible
  non-termination of source loops is made visible through an explicit fuel
  parameter, with the `fuelOut` outcome: a source computation diverges at an
  input exactly when the embedding returns `fuelOut` for every fuel.
-/

namespace Seq2

/-! ### Lexer data model, from `src/lexer.rs` and `src/errors.rs`

`src/lexer.rs` constructs tokens with the variant-with-fields shape
(`Token::Space { pos }`, `Token::Int { val, str_val, start_pos, end_pos }`,
...); we embed that shape as `LToken`.  Numeric values are parsed with
`number.parse::<u32>()`, so `val` is the numeric value as a `Nat` known to be
at most `u32::MAX`. -/

inductive LToken where
  | space (pos : Nat)
  | comma (pos : Nat)
  | int (val : Nat) (str_val : List Char) (start_pos end_pos : Nat)
  | rngInclusive (start_pos end_pos : Nat)
  | rngExclusive (start_pos end_pos : Nat)
  | rngStep (start_pos end_pos : Nat)
  | rngMutation (start_pos end_pos : Nat)
  | mathAdd (pos : Nat)
  | mathSub (pos : Nat)
  | mathMul (pos : Nat)
  | mathDiv (pos : Nat)
  | mathPow (pos : Nat)
  | lParen (pos : Nat)
  | rParen (pos : Nat)
  | lSquiggly (pos : Nat)
  | rSquiggly (pos : Nat)
  deriving DecidableEq, Repr

/-- Lexical error kinds, carrying the data the constructions in
`src/lexer.rs` actually pass (`errors.rs` declares richer payloads, and also
declares `NumberTooLarge`, which no code in `lexer.rs` constructs). -/
inductive LexicalError where
  | invalidToken (ch : Char) (pos : Nat)
  | missingColon (ch : Char) (pos : Nat)
  | invalidRange (start_pos end_pos : Nat)
  | unexpectedEqual (pos : Nat)
  | malformedNumber (digits : List Char) (start_pos end_pos : Nat)
  | numberTooLarge (start_pos end_pos : Nat)
  deriving DecidableEq, Repr

/-- Dropping a prefix never lengthens a list; justifies termination of the
lexer loop. -/
theorem length_dropWhile_le' {α : Type} (p : α → Bool) (l : List α) :
    (l.dropWhile p).length ≤ l.length :=
  (List.dropWhile_suffix p).length_le

/-- Characters accepted inside a numeric run: digits and the `_` separator
(`'0'..='9' | '_'` in `tokenize_numbers`). -/
def isNumChar (c : Char) : Bool :=
  c.isDigit || c = '_'

/-- Decimal value of a digit string, as `str::parse` computes it on an
all-digit input. -/
def digitsToNat (ds : List Char) : Nat :=
  ds.foldl (fun acc c => acc * 10 + (c.toNat - 48)) 0

/-- Largest value `u32` can hold; `number.parse::<u32>()` fails above it. -/
def u32Max : Nat := 4294967295

/-- Characters accepted inside a range run (`'.' | '='` in
`tokenize_range`). -/
def isRangeChar (c : Char) : Bool :=
  c = '.' || c = '='

/-- The scanning loop of `tokenize_range`: walk the run of `.`/`=`
characters tracking the previous character (initially the triggering `'.'`,
since `prev_ch = self.ch`), counting dots and noting `=`.  A `.` directly
after an `=` aborts with `UnexpectedEqual(start_pos)`. -/
def scanRangeRun (prev : Char) (dots : Nat) (incl : Bool) :
    List Char → Except Unit (Nat × Bool)
  | [] => .ok (dots, incl)
  | c :: cs =>
    if c = '.' then
      if prev = '=' then .error () else scanRangeRun '.' (dots + 1) incl cs
    else if c = '=' then
      scanRangeRun '=' dots true cs
    else
      .ok (dots, incl)

/-- The character classification performed by the `match *ch` dispatch of
`Lexer::lex` (`' '`, `','`, `'0'..='9'`, `'.'`, `'s' | 'm'`, the five
operators, the four parens, anything else). -/
inductive CharClass where
  | space
  | comma
  | digit
  | dot
  | sOrM
  | opAdd
  | opSub
  | opMul
  | opDiv
  | opPow
  | parenL
  | parenR
  | squigglyL
  | squigglyR
  | other
  deriving DecidableEq, Repr

/-- Classify one character as `Lexer::lex`'s match does. -/
def charClass (c : Char) : CharClass :=
  if c = ' ' then .space
  else if c = ',' then .comma
  else if c.isDigit then .digit
  else if c = '.' then .dot
  else if c = 's' ∨ c = 'm' then .sOrM
  else if c = '+' then .opAdd
  else if c = '-' then .opSub
  else if c = '*' then .opMul
  else if c = '/' then .opDiv
  else if c = '^' then .opPow
  else if c = '(' then .parenL
  else if c = ')' then .parenR
  else if c = '{' then .squigglyL
  else if c = '}' then .squigglyR
  else .other

/-- The lexer loop of `Lexer::lex` in `src/lexer.rs`.  `pos` is the
1-indexed position of the head character (the lexer starts at `position:
1`).  The first argument is structural fuel: every iteration of the source
loop consumes at least one character, so the input length (as supplied by
`lex` below) can never run out; the `0` fuel row is unreachable from
`lex`.  Note that the source pushes a `Space` token for `' '` rather than
skipping it, and that it tracks no brace context: `s`/`m` always go through
`tokenize_range_arg` and `@` always falls through to `InvalidToken`. -/
def lexAux : Nat → List Char → Nat → Except LexicalError (List LToken)
  | _, [], _ => .ok []
  | 0, _ :: _, _ => .ok []
  | fuel + 1, c :: cs, pos =>
    match charClass c with
    | .space => (LToken.space pos :: ·) <$> lexAux fuel cs (pos + 1)
    | .comma => (LToken.comma pos :: ·) <$> lexAux fuel cs (pos + 1)
    | .digit =>
      let run := c :: cs.takeWhile isNumChar
      let digits := run.filter (fun x => x ≠ '_')
      if digitsToNat digits ≤ u32Max then
        (LToken.int (digitsToNat digits) run pos (pos + run.length - 1)
            :: ·) <$>
          lexAux fuel (cs.dropWhile isNumChar) (pos + run.length)
      else
        .error (.malformedNumber digits pos (pos + run.length - 1))
    | .dot =>
      let run := c :: cs.takeWhile isRangeChar
      match scanRangeRun '.' 0 false run with
      | .error _ => .error (.unexpectedEqual pos)
      | .ok (dots, incl) =>
        if dots ≠ 2 then
          .error (.invalidRange pos (pos + run.length - 1))
        else if incl then
          (LToken.rngInclusive pos (pos + run.length - 1) :: ·) <$>
            lexAux fuel (cs.dropWhile isRangeChar) (pos + run.length)
        else
          (LToken.rngExclusive pos (pos + run.length - 1) :: ·) <$>
            lexAux fuel (cs.dropWhile isRangeChar) (pos + run.length)
    | .sOrM =>
      match cs with
      | ':' :: cs' =>
        if c = 's' then
          (LToken.rngStep pos (pos + 1) :: ·) <$> lexAux fuel cs' (pos + 2)
        else
          (LToken.rngMutation pos (pos + 1) :: ·) <$>
            lexAux fuel cs' (pos + 2)
      | _ => .error (.missingColon c pos)
    | .opAdd => (LToken.mathAdd pos :: ·) <$> lexAux fuel cs (pos + 1)
    | .opSub => (LToken.mathSub pos :: ·) <$> lexAux fuel cs (pos + 1)
    | .opMul => (LToken.mathMul pos :: ·) <$> lexAux fuel cs (pos + 1)
    | .opDiv => (LToken.mathDiv pos :: ·) <$> lexAux fuel cs (pos + 1)
    | .opPow => (LToken.mathPow pos :: ·) <$> lexAux fuel cs (pos + 1)
    | .parenL => (LToken.lParen pos :: ·) <$> lexAux fuel cs (pos + 1)
    | .parenR => (LToken.rParen pos :: ·) <$> lexAux fuel cs (pos + 1)
    | .squigglyL => (LToken.lSquiggly pos :: ·) <$> lexAux fuel cs (pos + 1)
    | .squigglyR => (LToken.rSquiggly pos :: ·) <$> lexAux fuel cs (pos + 1)
    | .other => .error (.invalidToken c pos)

/-- Embeds `Lexer::lex`: run the lexer loop with enough fuel (each loop iteration
consumes at least one character, so the input length suffices). -/
def lex (cs : List Char) (pos : Nat) : Except LexicalError (List LToken) :=
  lexAux cs.length cs pos

/-! ### Parser data model, from `src/tokens.rs` -/

/-- A 1-indexed inclusive character span (`Span` in `src/tokens.rs`).  The
source field `end` is a Lean keyword, embedded as `endPos`. -/
structure Span where
  start : Nat
  endPos : Nat
  deriving DecidableEq, Repr

/-- Math operator tags (`Op` in `src/tokens.rs`). -/
inductive Op where
  | add
  | sub
  | mul
  | div
  | pow
  | mod
  deriving DecidableEq, Repr

/-- Embeds `TokenKind` from `src/tokens.rs`.  The source stores the numeric value
as `u32`; the parser reads it through the pattern `Int { value: val }` and
negates it into an `i64` node, so we carry the value as `Int` (it is in
fact always a nonnegative value below `2 ^ 32`, far from `i64` overflow). -/
inductive TokenKind where
  | comma
  | int (value : Int)
  | math (op : Op)
  | lParen
  | rParen
  | lSquiggly
  | rSquiggly
  | rngInclusive
  | rngExclusive
  | rngStep
  | rngMutation
  | rngMutArg
  deriving DecidableEq, Repr

/-- Embeds `Token` from `src/tokens.rs`. -/
structure Token where
  kind : TokenKind
  span : Span
  deriving DecidableEq, Repr

/-- Embeds `Node` from `src/parser.rs`. -/
inductive Node where
  | int (span : Span) (value : Int)
  | mathExpr (negated : Bool) (span : Span) (rpn : List Token)
  | rangeExpr (span : Span) (start : Node) (endNode : Node)
      (step : Option Node) (mutation : Option Node)
  deriving Repr

/-- Syntactic error kinds, as `src/parser.rs` constructs them; every
construction clones the input character buffer and attaches a span.
`src/errors.rs` omits the `TooManyParen` variant that
`Parser::infix_to_postfix` constructs; we include it, following the
constructing code. -/
inductive ParserError where
  | emptyParen (input : List Char) (span : Span)
  | incompleteInt (input : List Char) (span : Span)
  | incompleteMathExpr (input : List Char) (span : Span)
  | invalidInt (input : List Char) (span : Span)
  | invalidMathOp (input : List Char) (span : Span)
  | invalidMathExpr (input : List Char) (span : Span)
  | unmatchedParen (input : List Char) (span : Span)
  | unexpectedComma (input : List Char) (span : Span)
  | unexpectedMathOp (input : List Char) (span : Span)
  | tooManyParen (input : List Char) (span : Span)
  deriving DecidableEq, Repr

/-- Outcome of running an embedded parser computation.  `panicked` records
abnormal termination (a `todo!`, `unreachable!` or out-of-bounds index in
the source); `fuelOut` records fuel exhaustion — a source computation
diverges at an input exactly when its embedding yields `fuelOut` at every
fuel. -/
inductive POut (α : Type) where
  | ok (val : α)
  | err (e : ParserError)
  | panicked
  | fuelOut
  deriving Repr

/-! ### The parser, from `src/parser.rs` -/

/-- Embeds `MAX_PAREN_DEPTH` from `src/parser.rs`. -/
def MAX_PAREN_DEPTH : Nat := 69

/-- The parser state (`Parser` in `src/parser.rs`).  The `tokens` iterator
is embedded as the list of not-yet-consumed tokens (its head is what
`peek()` returns).  The source's `position` counter is omitted: its only
reader is `Parser::prev_token`, which no code calls, and no error payload
or parse result depends on it. -/
structure Parser where
  input_chars : List Char
  tokens : List Token
  current_token : Token
  in_squiggly : Bool
  in_paren : Bool
  paren_depth : Nat
  deriving Repr

/-- Embeds `Parser::new`.  The source reads `tokens[0]` before any emptiness
check, so construction on an empty token list terminates abnormally
(`none` here). -/
def Parser.new (input_chars : List Char) (tokens : List Token) :
    Option Parser :=
  match tokens with
  | [] => none
  | t :: _ =>
    some ⟨input_chars, tokens, t, false, false, 0⟩

/-- Embeds `Parser::advance`: step the token iterator. -/
def advance (p : Parser) : Parser :=
  { p with tokens := p.tokens.tail }

/-- The sign-eating loop at the head of `Parser::parser_int`: consume
leading `+`/`-` operator tokens, counting the `-`s; return the count and
the remaining tokens. -/
def eatSigns : List Token → Nat × List Token
  | [] => (0, [])
  | t :: ts =>
    match t.kind with
    | .math .add => eatSigns ts
    | .math .sub =>
      let (c, r) := eatSigns ts
      (c + 1, r)
    | _ => (0, t :: ts)

/-- The comma-skipping loop inside `Parser::advance_past_comma`: consume
consecutive commas, failing with `UnexpectedComma` at the second one.  The
first argument is always the parser's remaining token list (kept separate
so the recursion is structural). -/
def apcLoop : List Token → Parser → Nat → Except ParserError Parser
  | [], p, _ => .ok p
  | t :: ts, p, comma_count =>
    if t.kind = .comma then
      let p' := advance { p with current_token := t }
      if comma_count + 1 > 1 then
        .error (.unexpectedComma p'.input_chars t.span)
      else
        apcLoop ts p' (comma_count + 1)
    else
      .ok { p with current_token := t }

/-- Embeds `Parser::advance_past_comma`: step past the node just parsed, then past
at most one comma; two consecutive commas are an error.  The source
returns `Ok(())` directly when the token stream ends (so a trailing comma
is accepted). -/
def advance_past_comma (p : Parser) : Except ParserError Parser :=
  apcLoop (advance p).tokens (advance p) 0

/-- Embeds `Parser::parser_int`: consume a run of leading `+`/`-` sign tokens,
then an `Int` token; the node's value is negated when the `-` count is
odd.  `current_token` is not updated by the sign-eating loop, so the
`IncompleteInt` error carries the span current at entry. -/
def parser_int (p : Parser) : Except ParserError (Node × Parser) :=
  let span_start := p.current_token.span.start
  let (minus_count, rest) := eatSigns p.tokens
  let p := { p with tokens := rest }
  let is_negative := minus_count % 2 ≠ 0
  match rest with
  | [] => .error (.incompleteInt p.input_chars p.current_token.span)
  | t :: _ =>
    let p := { p with current_token := t }
    match t.kind with
    | .int val =>
      let node := Node.int ⟨span_start, t.span.endPos⟩
        (if is_negative then -val else val)
      (advance_past_comma p).map (fun p' => (node, p'))
    | _ => .error (.invalidInt p.input_chars t.span)

/-- The scanning fold of `Parser::check_unmatched_paren`: walk the
remaining tokens keeping a stack of open-paren spans; an excess `)` or a
leftover `(` is `UnmatchedParen`.  The scan stops at the first token that
is not a paren, a math operator or an integer. -/
def cupLoop (input : List Char) : List Token → List Span →
    Except ParserError Unit
  | [], stack =>
    match stack with
    | [] => .ok ()
    | s :: _ => .error (.unmatchedParen input s)
  | t :: ts, stack =>
    match t.kind with
    | .lParen => cupLoop input ts (t.span :: stack)
    | .rParen =>
      match stack with
      | [] => .error (.unmatchedParen input t.span)
      | _ :: rest => cupLoop input ts rest
    | .math _ => cupLoop input ts stack
    | .int _ => cupLoop input ts stack
    | _ =>
      match stack with
      | [] => .ok ()
      | s :: _ => .error (.unmatchedParen input s)

/-- Embeds `Parser::check_unmatched_paren`, the pre-scan run at the start of
`parse_math_expr`. -/
def check_unmatched_paren (p : Parser) : Except ParserError Unit :=
  cupLoop p.input_chars p.tokens []

/-- A pending call in the `infix_to_postfix` recursion: either the entry of
`Parser::infix_to_postfix` itself, or an iteration of its token loop
(`is_start` and `token_count` are the loop's locals; `token_count` is
initialized to 0 and never incremented by the source, so the post-loop
check always produces `EmptyParen`). -/
inductive InfixCall where
  | entry (ouput_queue operator_stack : List Token) (p : Parser)
  | loop (is_start : Bool) (token_count : Nat)
      (ouput_queue operator_stack : List Token) (p : Parser)

/-- Embeds `Parser::infix_to_postfix` together with its token loop, driven by an
explicit call descriptor so that the mutual recursion is structural on the
fuel.  Entry: bump `paren_depth`, blindly advance one token, fail with
`TooManyParen` past `MAX_PAREN_DEPTH`, then run the loop.  Loop: the `Int`
arm and the non-initial `Math` arm do not advance the cursor, so reaching
them spins forever (here: exhausts any fuel). -/
def infixGo : Nat → Nat → InfixCall → POut (List Token × List Token × Parser)
  | 0, _, _ => .fuelOut
  | f + 1, start, .entry ouput_queue operator_stack p =>
    let p := { p with paren_depth := p.paren_depth + 1 }
    let p := advance p
    if p.paren_depth > MAX_PAREN_DEPTH then
      .err (.tooManyParen p.input_chars ⟨start, p.current_token.span.endPos⟩)
    else
      infixGo f start (.loop true 0 ouput_queue operator_stack p)
  | f + 1, start, .loop is_start token_count ouput_queue operator_stack p =>
    match p.tokens with
    | [] =>
      if token_count = 0 then
        .err (.emptyParen p.input_chars
          ⟨start, p.current_token.span.endPos + 1⟩)
      else
        .ok (ouput_queue, operator_stack, p)
    | t :: _ =>
      let p := { p with current_token := t }
      match t.kind with
      | .rParen =>
        let p := advance p
        let p := { p with paren_depth := p.paren_depth - 1 }
        if p.paren_depth > 0 then
          .panicked
        else if token_count = 0 then
          .err (.emptyParen p.input_chars
            ⟨start, p.current_token.span.endPos + 1⟩)
        else
          .ok (ouput_queue, operator_stack, p)
      | .lParen =>
        match infixGo f start (.entry ouput_queue operator_stack p) with
        | .ok (oq, os, p') =>
          infixGo f start (.loop false token_count oq os p')
        | .err e => .err e
        | .panicked => .panicked
        | .fuelOut => .fuelOut
      | .int _ =>
        infixGo f start (.loop false token_count ouput_queue operator_stack p)
      | .math op =>
        if is_start then
          match op with
          | .add | .sub =>
            match parser_int p with
            | .ok (Node.int sp v, p') =>
              infixGo f start (.loop false token_count
                (ouput_queue ++ [⟨.int v, sp⟩]) operator_stack p')
            | .ok _ => .panicked
            | .error e => .err e
          | _ => .err (.unexpectedMathOp p.input_chars t.span)
        else
          infixGo f start (.loop false token_count ouput_queue operator_stack p)
      | _ => .err (.incompleteMathExpr p.input_chars ⟨start, t.span.endPos⟩)

/-- Embeds `Parser::infix_to_postfix`, as called from `parse_math_expr`. -/
def infix_to_postfix (fuel : Nat) (start : Nat)
    (ouput_queue operator_stack : List Token) (p : Parser) :
    POut (List Token × List Token × Parser) :=
  infixGo fuel start (.entry ouput_queue operator_stack p)

/-- Embeds `Parser::parse_math_expr`: pre-scan for unmatched parens, consume the
opening paren, run `infix_to_postfix`, and — were that ever to succeed —
hit `todo!("Implement shunting yard algorithm")`. -/
def parse_math_expr (fuel : Nat) (p : Parser) : POut (Node × Parser) :=
  match check_unmatched_paren p with
  | .error e => .err e
  | .ok _ =>
    let p := { p with in_paren := true }
    let span_start := p.current_token.span.start
    let p := advance p
    match infix_to_postfix fuel span_start [] [] p with
    | .ok _ => .panicked
    | .err e => .err e
    | .panicked => .panicked
    | .fuelOut => .fuelOut

/-- Embeds `Parser::parse_t`: dispatch on the current token.  There is no arm for
`LSquiggly` (or any range token): those fall into
`todo!("Unexpected token")`, i.e. abnormal termination. -/
def parse_t (fuel : Nat) (p : Parser) : POut (Node × Parser) :=
  match p.current_token.kind with
  | .int _ =>
    match parser_int p with
    | .ok np => .ok np
    | .error e => .err e
  | .comma => .err (.unexpectedComma p.input_chars p.current_token.span)
  | .math op =>
    match op with
    | .add | .sub =>
      match parser_int p with
      | .ok np => .ok np
      | .error e => .err e
    | _ => .err (.unexpectedMathOp p.input_chars p.current_token.span)
  | .lParen => parse_math_expr fuel p
  | _ => .panicked

/-- The `while let Some(token) = self.tokens.peek()` loop of
`Parser::parse`, accumulating one node per top-level item. -/
def parseLoop (fuel : Nat) (p : Parser) (nodes : List Node) :
    POut (List Node) :=
  match p.tokens with
  | [] => .ok nodes
  | t :: _ =>
    match fuel with
    | 0 => .fuelOut
    | f + 1 =>
      let p := { p with current_token := t }
      match parse_t f p with
      | .ok (node, p') => parseLoop f p' (nodes ++ [node])
      | .err e => .err e
      | .panicked => .panicked
      | .fuelOut => .fuelOut

/-- Embeds `Parser::parse`. -/
def Parser.parse (fuel : Nat) (p : Parser) : POut (List Node) :=
  parseLoop fuel p []

/-- Build a parser with `Parser::new` and run `parse`; the `tokens[0]`
index of `Parser::new` panics on an empty token list. -/
def runParse (fuel : Nat) (input_chars : List Char)
    (tokens : List Token) : POut (List Node) :=
  match Parser.new input_chars tokens with
  | none => .panicked
  | some p => p.parse fuel

/-! ### The lex-then-parse pipeline

`src/lexer.rs` and `src/parser.rs` use two incompatible token types (the
crate is mid-refactor): the lexer builds variant-with-fields tokens while
the parser consumes `tokens.rs`-style `{kind, span}` tokens, whose
`TokenKind` has no `Space` variant.  The bridge below maps each lexer
token to its evident parser counterpart and is undefined on `Space`. -/

/-- Map a lexer token to the corresponding parser token; `Space` has no
counterpart in `TokenKind`. -/
def toParserToken : LToken → Option Token
  | .space _ => none
  | .comma pos => some ⟨.comma, ⟨pos, pos⟩⟩
  | .int v _ s e => some ⟨.int (v : Int), ⟨s, e⟩⟩
  | .rngInclusive s e => some ⟨.rngInclusive, ⟨s, e⟩⟩
  | .rngExclusive s e => some ⟨.rngExclusive, ⟨s, e⟩⟩
  | .rngStep s e => some ⟨.rngStep, ⟨s, e⟩⟩
  | .rngMutation s e => some ⟨.rngMutation, ⟨s, e⟩⟩
  | .mathAdd pos => some ⟨.math .add, ⟨pos, pos⟩⟩
  | .mathSub pos => some ⟨.math .sub, ⟨pos, pos⟩⟩
  | .mathMul pos => some ⟨.math .mul, ⟨pos, pos⟩⟩
  | .mathDiv pos => some ⟨.math .div, ⟨pos, pos⟩⟩
  | .mathPow pos => some ⟨.math .pow, ⟨pos, pos⟩⟩
  | .lParen pos => some ⟨.lParen, ⟨pos, pos⟩⟩
  | .rParen pos => some ⟨.rParen, ⟨pos, pos⟩⟩
  | .lSquiggly pos => some ⟨.lSquiggly, ⟨pos, pos⟩⟩
  | .rSquiggly pos => some ⟨.rSquiggly, ⟨pos, pos⟩⟩

/-- Bridge a whole lexer token list to parser tokens. -/
def toParserTokens (l : List LToken) : Option (List Token) :=
  l.mapM toParserToken

/-- Run the whole pipeline on a character buffer: lex, bridge the tokens,
construct the parser and parse.  `none` means the pipeline cannot even be
composed (a lexical error, or a `Space` token the parser's token type
cannot represent). -/
def lexThenParse (fuel : Nat) (input : List Char) :
    Option (POut (List Node)) :=
  match lex input 1 with
  | .error _ => none
  | .ok lts =>
    match toParserTokens lts with
    | none => none
    | some ts => some (runParse fuel input ts)

/-! ### Range materialization, modelled from the spec

No range materializer exists under `src/` (the parser's `Node::RangeExpr`
is declared but nothing consumes it), so the materialization algorithm is
modelled from the specification text. -/

/-- Modelled from the spec: the generation loop of the range materializer
(§4.3 step 3), which is missing from `src/`.  Starting from `cur`,
generate successive positions `cur, cur + step, …`, stopping at the first
position that would pass `endv` in the direction of travel (`up`); for
inclusive ranges the last value may equal `endv` exactly, for exclusive
ranges generation stops strictly before `endv`.  The fuel is an upper
bound on the number of generated values; `materialize` supplies enough. -/
def genLoop : Nat → Int → Int → Int → Bool → Bool → List Int
  | 0, _, _, _, _, _ => []
  | fuel + 1, cur, endv, step, incl, up =>
    if (if incl then (if up then cur ≤ endv else endv ≤ cur)
        else (if up then cur < endv else endv < cur)) then
      cur :: genLoop fuel (cur + step) endv step incl up
    else
      []

/-- Modelled from the spec: `materialize` (§4.3), which is missing from
`src/`.  Direction is `+` when `end ≥ start` and `−` otherwise (§4.3 step
2); positions are generated until they would pass `end` (§4.3 step 3).
The optional mutation maps each emitted value but does not change the
positions the claim speaks about, so it is omitted here. -/
def materialize (start endv step : Int) (incl : Bool) : List Int :=
  if start ≤ endv then
    genLoop ((endv - start).toNat + 1) start endv step incl true
  else
    genLoop ((start - endv).toNat + 1) start endv step incl false

/-! ### Helper definitions and lemmas for the claims -/

/-- The operator token a leading `+`/`-` sign contributes. -/
def signTok (x : Op × Span) : Token :=
  ⟨.math x.1, x.2⟩

/-- Token list of a signed integer literal item: a run of sign tokens
followed by one `Int` token. -/
def litToks (signs : List (Op × Span)) (v : Int) (sp : Span) : List Token :=
  signs.map signTok ++ [⟨.int v, sp⟩]

/-- Number of `-` signs in a sign run. -/
def minusCount (signs : List (Op × Span)) : Nat :=
  signs.countP (fun x => decide (x.1 = Op.sub))

/-- Span start of a literal item: the first sign token's start, or the
`Int` token's start when there are no signs. -/
def litStart (signs : List (Op × Span)) (sp : Span) : Nat :=
  match signs with
  | [] => sp.start
  | x :: _ => x.2.start

/-- The sign-eating loop consumes exactly the sign-token prefix and counts
its `-`s. -/
theorem eatSigns_lit (signs : List (Op × Span))
    (hs : ∀ x ∈ signs, x.1 = Op.add ∨ x.1 = Op.sub)
    (v : Int) (sp : Span) (rest : List Token) :
    eatSigns (signs.map signTok ++ ⟨.int v, sp⟩ :: rest)
      = (minusCount signs, ⟨.int v, sp⟩ :: rest) := by
  induction signs with
  | nil => simp [eatSigns, minusCount]
  | cons x xs ih =>
    have hx := hs x (List.mem_cons_self x xs)
    have hxs : ∀ y ∈ xs, y.1 = Op.add ∨ y.1 = Op.sub :=
      fun y hy => hs y (List.mem_cons_of_mem x hy)
    rcases hx with hadd | hsub
    · simp [eatSigns, signTok, hadd, ih hxs, minusCount, List.countP_cons]
    · simp [eatSigns, signTok, hsub, ih hxs, minusCount, List.countP_cons]

/-- Running `parser_int` on a signed literal followed by nothing: it returns the
`Int` node with parity-of-minus sign and consumes all tokens. -/
theorem parser_int_lit (signs : List (Op × Span)) (v : Int) (sp : Span)
    (p : Parser)
    (hs : ∀ x ∈ signs, x.1 = Op.add ∨ x.1 = Op.sub)
    (ht : p.tokens = litToks signs v sp) :
    ∃ p', parser_int p
        = .ok (Node.int ⟨p.current_token.span.start, sp.endPos⟩
            (if minusCount signs % 2 = 1 then -v else v), p')
      ∧ p'.tokens = [] := by
  have he := eatSigns_lit signs hs v sp []
  simp only [litToks, List.append_nil] at he
  simp only [parser_int, ht, litToks, he, advance_past_comma, advance,
    apcLoop, Except.map, ne_eq, Nat.mod_two_ne_zero]
  exact ⟨_, rfl, rfl⟩

/-- One step of the `parse` loop on a nonempty token stream, with the
state spelled out. -/
theorem parseLoop_cons (f : Nat) (chars : List Char) (t : Token)
    (ts : List Token) (cur : Token) (sq pa : Bool) (pd : Nat)
    (nodes : List Node) :
    parseLoop (f + 1) ⟨chars, t :: ts, cur, sq, pa, pd⟩ nodes
      = match parse_t f ⟨chars, t :: ts, t, sq, pa, pd⟩ with
        | .ok (node, p') => parseLoop f p' (nodes ++ [node])
        | .err e => .err e
        | .panicked => .panicked
        | .fuelOut => .fuelOut :=
  rfl

/-- The `parse` loop on an exhausted token stream returns the accumulated
nodes. -/
theorem parseLoop_nil (fuel : Nat) (p : Parser) (nodes : List Node)
    (h : p.tokens = []) : parseLoop fuel p nodes = .ok nodes := by
  rw [parseLoop.eq_def, h]

/-- Claim C1: parsing a well-formed signed integer literal item (a run of
`+`/`-` sign tokens followed by an `Int` token) yields a single `Int`
node whose value carries the parity-of-`-` sign: even `-` count positive,
odd negative. -/
theorem claim1_signed_int_literal (signs : List (Op × Span)) (v : Int)
    (sp : Span) (chars : List Char) (fuel : Nat)
    (hs : ∀ x ∈ signs, x.1 = Op.add ∨ x.1 = Op.sub)
    (hfuel : 1 ≤ fuel) :
    runParse fuel chars (litToks signs v sp)
      = .ok [Node.int ⟨litStart signs sp, sp.endPos⟩
          (if minusCount signs % 2 = 1 then -v else v)] := by
  obtain ⟨f, rfl⟩ : ∃ f, fuel = f + 1 :=
    ⟨fuel - 1, (Nat.succ_pred_eq_of_pos hfuel).symm⟩
  cases signs with
  | nil =>
    obtain ⟨p', hp', hpt⟩ := parser_int_lit [] v sp
      ⟨chars, litToks [] v sp, ⟨.int v, sp⟩, false, false, 0⟩
      (by simp) (by rfl)
    have h0 : runParse (f + 1) chars (litToks [] v sp)
        = parseLoop (f + 1)
            ⟨chars, ⟨.int v, sp⟩ :: [], ⟨.int v, sp⟩, false, false, 0⟩ [] :=
      rfl
    rw [h0, parseLoop_cons f chars ⟨.int v, sp⟩ [] ⟨.int v, sp⟩
      false false 0 []]
    have hstep : parse_t f
        ⟨chars, ⟨.int v, sp⟩ :: [], ⟨.int v, sp⟩, false, false, 0⟩
        = .ok (Node.int ⟨sp.start, sp.endPos⟩
            (if minusCount ([] : List (Op × Span)) % 2 = 1 then -v else v),
          p') := by
      show (match parser_int ⟨chars, litToks [] v sp,
          ⟨.int v, sp⟩, false, false, 0⟩ with
        | .ok np => POut.ok np
        | .error e => POut.err e) = _
      rw [hp']
    rw [hstep]
    exact parseLoop_nil f p' _ hpt
  | cons x xs =>
    have hx := hs x (List.mem_cons_self x xs)
    obtain ⟨p', hp', hpt⟩ := parser_int_lit (x :: xs) v sp
      ⟨chars, litToks (x :: xs) v sp, signTok x, false, false, 0⟩
      hs (by rfl)
    have h0 : runParse (f + 1) chars (litToks (x :: xs) v sp)
        = parseLoop (f + 1)
            ⟨chars, signTok x :: litToks xs v sp, signTok x,
              false, false, 0⟩ [] :=
      rfl
    rw [h0, parseLoop_cons f chars (signTok x) (litToks xs v sp)
      (signTok x) false false 0 []]
    have hstep : parse_t f
        ⟨chars, signTok x :: litToks xs v sp, signTok x, false, false, 0⟩
        = .ok (Node.int ⟨(signTok x).span.start, sp.endPos⟩
            (if minusCount (x :: xs) % 2 = 1 then -v else v), p') := by
      rcases hx with hadd | hsub
      · show parse_t f ⟨chars, signTok x :: litToks xs v sp,
            ⟨.math x.1, x.2⟩, false, false, 0⟩ = _
        rw [hadd]
        show (match parser_int ⟨chars, signTok x :: litToks xs v sp,
            ⟨.math Op.add, x.2⟩, false, false, 0⟩ with
          | .ok np => POut.ok np
          | .error e => POut.err e) = _
        rw [show (⟨.math Op.add, x.2⟩ : Token) = signTok x by
          rw [signTok, hadd]]
        rw [show (signTok x :: litToks xs v sp) = litToks (x :: xs) v sp
          from rfl]
        rw [hp']
      · show parse_t f ⟨chars, signTok x :: litToks xs v sp,
            ⟨.math x.1, x.2⟩, false, false, 0⟩ = _
        rw [hsub]
        show (match parser_int ⟨chars, signTok x :: litToks xs v sp,
            ⟨.math Op.sub, x.2⟩, false, false, 0⟩ with
          | .ok np => POut.ok np
          | .error e => POut.err e) = _
        rw [show (⟨.math Op.sub, x.2⟩ : Token) = signTok x by
          rw [signTok, hsub]]
        rw [show (signTok x :: litToks xs v sp) = litToks (x :: xs) v sp
          from rfl]
        rw [hp']
    rw [hstep]
    exact parseLoop_nil f p' _ hpt

/-- Witness for C1 at the spec's own example `"--10"`: two `-` signs, so
the parsed value is positive 10. -/
theorem claim1_witness :
    runParse 1 ['-', '-', '1', '0']
        (litToks [(Op.sub, ⟨1, 1⟩), (Op.sub, ⟨2, 2⟩)] 10 ⟨3, 4⟩)
      = .ok [Node.int ⟨1, 4⟩ 10] :=
  claim1_signed_int_literal [(Op.sub, ⟨1, 1⟩), (Op.sub, ⟨2, 2⟩)] 10 ⟨3, 4⟩
    ['-', '-', '1', '0'] 1 (by decide) (by decide)

/-! ### Claim C2: comma handling -/

/-- A comma token. -/
def commaTok (sp : Span) : Token :=
  ⟨.comma, sp⟩

/-- An integer token. -/
def intTok (v : Int) (sp : Span) : Token :=
  ⟨.int v, sp⟩

/-- Token list of a sequence of integer items each followed by one comma:
`sepToks [(v1, i1, c1), (v2, i2, c2)]` is `v1 , v2 ,`. -/
def sepToks : List (Int × Span × Span) → List Token
  | [] => []
  | (v, isp, csp) :: rest => intTok v isp :: commaTok csp :: sepToks rest

/-- The nodes such a sequence parses to. -/
def itemNodes (its : List (Int × Span × Span)) : List Node :=
  its.map (fun x => Node.int ⟨x.2.1.start, x.2.1.endPos⟩ x.1)

/-- Running `parse_t` on an integer item followed by a single comma and a stream
that is empty or starts with another integer: the item parses and the
comma is consumed. -/
theorem parse_t_item_ok (g : Nat) (v : Int) (isp csp : Span)
    (ts : List Token) (chars : List Char) (sq pa : Bool) (pd : Nat)
    (hts : ts = [] ∨ ∃ w wsp ts', ts = intTok w wsp :: ts') :
    parse_t g
        ⟨chars, intTok v isp :: commaTok csp :: ts, intTok v isp,
          sq, pa, pd⟩
      = .ok (Node.int ⟨isp.start, isp.endPos⟩ v,
          ⟨chars, ts, ts.headD (commaTok csp), sq, pa, pd⟩) := by
  rcases hts with rfl | ⟨w, wsp, ts', rfl⟩
  · rfl
  · rfl

/-- Running `parse_t` on an integer item followed by two consecutive commas:
`UnexpectedComma` at the second comma. -/
theorem parse_t_item_err (g : Nat) (v : Int) (isp csp csp2 : Span)
    (ts : List Token) (chars : List Char) (sq pa : Bool) (pd : Nat) :
    parse_t g
        ⟨chars, intTok v isp :: commaTok csp :: commaTok csp2 :: ts,
          intTok v isp, sq, pa, pd⟩
      = .err (.unexpectedComma chars csp2) :=
  rfl

/-- The parse loop accepts a comma-separated item list in which every item
(including the last) is followed by one comma. -/
theorem parseLoop_sep_trailing (its : List (Int × Span × Span)) :
    ∀ (f : Nat) (chars : List Char) (cur : Token) (sq pa : Bool)
      (pd : Nat) (nodes : List Node),
      its.length ≤ f →
      parseLoop f ⟨chars, sepToks its, cur, sq, pa, pd⟩ nodes
        = .ok (nodes ++ itemNodes its) := by
  induction its with
  | nil =>
    intro f chars cur sq pa pd nodes _
    rw [parseLoop_nil f _ nodes rfl]
    simp [itemNodes]
  | cons x its' ih =>
    intro f chars cur sq pa pd nodes hf
    obtain ⟨v, isp, csp⟩ := x
    obtain ⟨g, rfl⟩ : ∃ g, f = g + 1 :=
      ⟨f - 1, (Nat.succ_pred_eq_of_pos (Nat.lt_of_lt_of_le
        (Nat.succ_pos _) hf)).symm⟩
    rw [show sepToks ((v, isp, csp) :: its')
      = intTok v isp :: commaTok csp :: sepToks its' from rfl]
    rw [parseLoop_cons g chars (intTok v isp)
      (commaTok csp :: sepToks its') cur sq pa pd nodes]
    have hts : sepToks its' = []
        ∨ ∃ w wsp ts', sepToks its' = intTok w wsp :: ts' := by
      cases its' with
      | nil => exact .inl rfl
      | cons y ys =>
        obtain ⟨w, wsp, csp'⟩ := y
        exact .inr ⟨w, wsp, _, rfl⟩
    rw [parse_t_item_ok g v isp csp (sepToks its') chars sq pa pd hts]
    exact (ih g chars _ sq pa pd (nodes ++ _)
      (Nat.le_of_succ_le_succ hf)).trans (by simp [itemNodes])

/-- The parse loop accepts a comma-separated item list ending in a final
integer item with no trailing comma. -/
theorem parseLoop_sep_last (its : List (Int × Span × Span)) :
    ∀ (f : Nat) (v : Int) (sp : Span) (chars : List Char) (cur : Token)
      (sq pa : Bool) (pd : Nat) (nodes : List Node),
      its.length + 1 ≤ f →
      parseLoop f
          ⟨chars, sepToks its ++ [intTok v sp], cur, sq, pa, pd⟩ nodes
        = .ok (nodes ++ itemNodes its
            ++ [Node.int ⟨sp.start, sp.endPos⟩ v]) := by
  induction its with
  | nil =>
    intro f v sp chars cur sq pa pd nodes hf
    obtain ⟨g, rfl⟩ : ∃ g, f = g + 1 :=
      ⟨f - 1, (Nat.succ_pred_eq_of_pos hf).symm⟩
    rw [show sepToks [] ++ [intTok v sp] = intTok v sp :: [] from rfl]
    rw [parseLoop_cons g chars (intTok v sp) [] cur sq pa pd nodes]
    have hpt : parse_t g
        ⟨chars, intTok v sp :: [], intTok v sp, sq, pa, pd⟩
        = .ok (Node.int ⟨sp.start, sp.endPos⟩ v,
            ⟨chars, [], intTok v sp, sq, pa, pd⟩) := rfl
    rw [hpt]
    exact (parseLoop_nil g ⟨chars, [], intTok v sp, sq, pa, pd⟩
      (nodes ++ [Node.int ⟨sp.start, sp.endPos⟩ v]) rfl).trans
      (by simp [itemNodes])
  | cons x its' ih =>
    intro f v sp chars cur sq pa pd nodes hf
    obtain ⟨w, isp, csp⟩ := x
    obtain ⟨g, rfl⟩ : ∃ g, f = g + 1 :=
      ⟨f - 1, (Nat.succ_pred_eq_of_pos (Nat.lt_of_lt_of_le
        (Nat.succ_pos _) hf)).symm⟩
    rw [show sepToks ((w, isp, csp) :: its') ++ [intTok v sp]
      = intTok w isp :: commaTok csp :: (sepToks its' ++ [intTok v sp])
      from rfl]
    rw [parseLoop_cons g chars (intTok w isp)
      (commaTok csp :: (sepToks its' ++ [intTok v sp])) cur sq pa pd nodes]
    have hts : sepToks its' ++ [intTok v sp] = []
        ∨ ∃ u usp ts', sepToks its' ++ [intTok v sp]
            = intTok u usp :: ts' := by
      cases its' with
      | nil => exact .inr ⟨v, sp, _, rfl⟩
      | cons y ys =>
        obtain ⟨u, usp, csp'⟩ := y
        exact .inr ⟨u, usp, _, rfl⟩
    rw [parse_t_item_ok g w isp csp _ chars sq pa pd hts]
    exact (ih g v sp chars _ sq pa pd (nodes ++ _)
      (Nat.le_of_succ_le_succ hf)).trans (by simp [itemNodes])

/-- The parse loop rejects a doubled comma: after any run of properly
comma-separated items, a comma where an item should start is
`UnexpectedComma` at that comma's span. -/
theorem parseLoop_sep_double (its : List (Int × Span × Span)) :
    ∀ (f : Nat) (csp : Span) (rest : List Token) (chars : List Char)
      (cur : Token) (sq pa : Bool) (pd : Nat) (nodes : List Node),
      its.length + 1 ≤ f →
      parseLoop f
          ⟨chars, sepToks its ++ commaTok csp :: rest, cur,
            sq, pa, pd⟩ nodes
        = .err (.unexpectedComma chars csp) := by
  induction its with
  | nil =>
    intro f csp rest chars cur sq pa pd nodes hf
    obtain ⟨g, rfl⟩ : ∃ g, f = g + 1 :=
      ⟨f - 1, (Nat.succ_pred_eq_of_pos hf).symm⟩
    rw [show sepToks [] ++ commaTok csp :: rest = commaTok csp :: rest
      from rfl]
    rw [parseLoop_cons g chars (commaTok csp) rest cur sq pa pd nodes]
    rfl
  | cons x its' ih =>
    intro f csp rest chars cur sq pa pd nodes hf
    obtain ⟨w, isp, csp'⟩ := x
    obtain ⟨g, rfl⟩ : ∃ g, f = g + 1 :=
      ⟨f - 1, (Nat.succ_pred_eq_of_pos (Nat.lt_of_lt_of_le
        (Nat.succ_pos _) hf)).symm⟩
    rw [show sepToks ((w, isp, csp') :: its') ++ commaTok csp :: rest
      = intTok w isp
          :: commaTok csp' :: (sepToks its' ++ commaTok csp :: rest)
      from rfl]
    rw [parseLoop_cons g chars (intTok w isp)
      (commaTok csp' :: (sepToks its' ++ commaTok csp :: rest))
      cur sq pa pd nodes]
    cases its' with
    | nil =>
      rw [show sepToks [] ++ commaTok csp :: rest = commaTok csp :: rest
        from rfl]
      rw [parse_t_item_err g w isp csp' csp rest chars sq pa pd]
    | cons y ys =>
      obtain ⟨u, usp, csp''⟩ := y
      have hts : sepToks ((u, usp, csp'') :: ys) ++ commaTok csp :: rest
          = [] ∨ ∃ a asp ts',
            sepToks ((u, usp, csp'') :: ys) ++ commaTok csp :: rest
              = intTok a asp :: ts' :=
        .inr ⟨u, usp, _, rfl⟩
      rw [parse_t_item_ok g w isp csp' _ chars sq pa pd hts]
      exact ih g csp rest chars _ sq pa pd (nodes ++ _)
        (Nat.le_of_succ_le_succ hf)

/-- Counterexample to claim C2 as stated: the claim says a comma trailing
the final item fails with `UnexpectedComma`, but the code accepts the
tokens of `"1,"` and returns the single `Int` node (the source's
`advance_past_comma` returns `Ok(())` when the stream ends after one
comma). -/
theorem claim2_counterexample :
    lexThenParse 1 ['1', ','] = some (.ok [Node.int ⟨1, 1⟩ 1]) :=
  rfl

/-- Claim C2 as amended: parse fails with `UnexpectedComma` exactly at a
comma at the very start or at the second of two consecutive commas between
items; single commas between items are accepted, and so is a single comma
trailing the final item.  The four conjuncts: (1) leading comma; (2) a
properly separated item list with no trailing comma parses; (3) a
properly separated item list whose last item is followed by a comma also
parses; (4) a doubled comma fails at the second comma's span. -/
theorem claim2_amended :
    (∀ (chars : List Char) (csp : Span) (rest : List Token) (fuel : Nat),
        1 ≤ fuel →
        runParse fuel chars (commaTok csp :: rest)
          = .err (.unexpectedComma chars csp))
    ∧ (∀ (chars : List Char) (its : List (Int × Span × Span)) (v : Int)
        (sp : Span) (fuel : Nat),
        its.length + 1 ≤ fuel →
        runParse fuel chars (sepToks its ++ [intTok v sp])
          = .ok (itemNodes its ++ [Node.int ⟨sp.start, sp.endPos⟩ v]))
    ∧ (∀ (chars : List Char) (x : Int × Span × Span)
        (its : List (Int × Span × Span)) (fuel : Nat),
        (x :: its).length ≤ fuel →
        runParse fuel chars (sepToks (x :: its))
          = .ok (itemNodes (x :: its)))
    ∧ (∀ (chars : List Char) (its : List (Int × Span × Span)) (csp : Span)
        (rest : List Token) (fuel : Nat),
        its.length + 1 ≤ fuel →
        runParse fuel chars (sepToks its ++ commaTok csp :: rest)
          = .err (.unexpectedComma chars csp)) := by
  refine ⟨?_, ?_, ?_, ?_⟩
  · intro chars csp rest fuel hf
    obtain ⟨g, rfl⟩ : ∃ g, fuel = g + 1 :=
      ⟨fuel - 1, (Nat.succ_pred_eq_of_pos hf).symm⟩
    have h0 : runParse (g + 1) chars (commaTok csp :: rest)
        = parseLoop (g + 1)
            ⟨chars, commaTok csp :: rest, commaTok csp, false, false, 0⟩
            [] :=
      rfl
    rw [h0, parseLoop_cons g chars (commaTok csp) rest (commaTok csp)
      false false 0 []]
    rfl
  · intro chars its v sp fuel hf
    cases its with
    | nil =>
      exact parseLoop_sep_last [] fuel v sp chars (intTok v sp)
        false false 0 [] hf
    | cons x its' =>
      obtain ⟨w, isp, csp⟩ := x
      exact parseLoop_sep_last ((w, isp, csp) :: its') fuel v sp chars
        (intTok w isp) false false 0 [] hf
  · intro chars x its fuel hf
    obtain ⟨v, isp, csp⟩ := x
    exact parseLoop_sep_trailing ((v, isp, csp) :: its) fuel chars
      (intTok v isp) false false 0 [] hf
  · intro chars its csp rest fuel hf
    cases its with
    | nil =>
      exact parseLoop_sep_double [] fuel csp rest chars (commaTok csp)
        false false 0 [] hf
    | cons x its' =>
      obtain ⟨w, isp, csp'⟩ := x
      exact parseLoop_sep_double ((w, isp, csp') :: its') fuel csp rest
        chars (intTok w isp) false false 0 [] hf

/-- Witness for the amended C2, instantiating every conjunct on concrete
token lists: a leading comma, the list `1,2`, the list `1,` and the
doubled-comma list `1,,`. -/
theorem claim2_witness :
    runParse 1 [','] (commaTok ⟨1, 1⟩ :: [])
        = .err (.unexpectedComma [','] ⟨1, 1⟩)
    ∧ runParse 2 ['1', ',', '2']
        (sepToks [(1, ⟨1, 1⟩, ⟨2, 2⟩)] ++ [intTok 2 ⟨3, 3⟩])
        = .ok (itemNodes [(1, ⟨1, 1⟩, ⟨2, 2⟩)] ++ [Node.int ⟨3, 3⟩ 2])
    ∧ runParse 1 ['1', ','] (sepToks [(1, ⟨1, 1⟩, ⟨2, 2⟩)])
        = .ok (itemNodes [(1, ⟨1, 1⟩, ⟨2, 2⟩)])
    ∧ runParse 2 ['1', ',', ',']
        (sepToks [(1, ⟨1, 1⟩, ⟨2, 2⟩)] ++ commaTok ⟨3, 3⟩ :: [])
        = .err (.unexpectedComma ['1', ',', ','] ⟨3, 3⟩) :=
  ⟨claim2_amended.1 [','] ⟨1, 1⟩ [] 1 (by decide),
   claim2_amended.2.1 ['1', ',', '2'] [(1, ⟨1, 1⟩, ⟨2, 2⟩)] 2 ⟨3, 3⟩ 2
     (by decide),
   claim2_amended.2.2.1 ['1', ','] (1, ⟨1, 1⟩, ⟨2, 2⟩) [] 1 (by decide),
   claim2_amended.2.2.2 ['1', ',', ','] [(1, ⟨1, 1⟩, ⟨2, 2⟩)] ⟨3, 3⟩ [] 2
     (by decide)⟩

/-! ### Claims C3, C7, C8, C10: unimplemented branches and lexer gaps -/

/-- Claim C3 (code bug): the claim says an item beginning with `{` parses
to a `RangeExpr` node and does not terminate abnormally, but `parse_t` has
no arm for `LSquiggly` at all: `"\x7b1..5\x7d"` lexes fine and then hits
`todo!("Unexpected token")`, i.e. abnormal termination, at the very first
parse step (hence for every positive fuel). -/
theorem claim3_range_expr_todo :
    ∀ f : Nat,
      lexThenParse (f + 1) ['{', '1', '.', '.', '5', '}'] = some .panicked :=
  fun _ => rfl

/-- Claim C7 (code bug): the lexer tracks no brace context, so `s:` at the
top level (outside any braces) lexes happily to a `RngStep` marker token
instead of raising `MisplacedRngSyntax`, and `@` raises `InvalidToken`,
not `MisplacedRngSyntax` — `MisplacedRngSyntax` is never constructed by
`lexer.rs` (the repository's own test file `src/tests/lexer.rs` expects
it for both inputs). -/
theorem claim7_no_misplaced_rng_syntax :
    lex ['s', ':', '1'] 1 = .ok [.rngStep 1 2, .int 1 ['1'] 3 3]
    ∧ lex ['@'] 1 = .error (.invalidToken '@' 1) :=
  ⟨rfl, rfl⟩

/-- Claim C8 (code bug): the claim says digit runs are parsed as 64-bit
signed integers with `NumberTooLarge` on overflow, but `tokenize_numbers`
parses with `parse::<u32>()` and maps every failure to `MalformedNumber`:
the run `4294967296` (= 2^32, far below `i64::MAX`) is rejected as
`MalformedNumber` over the digit run's span, and `NumberTooLarge` is never
raised. -/
theorem claim8_u32_overflow_malformed :
    lex ['4', '2', '9', '4', '9', '6', '7', '2', '9', '6'] 1
      = .error (.malformedNumber
          ['4', '2', '9', '4', '9', '6', '7', '2', '9', '6'] 1 10) :=
  rfl

/-- Counterexample to claim C10 as stated: on the empty input `lex`
succeeds with an empty token list, and `Parser::new`'s unconditional
`tokens[0]` then terminates abnormally (index out of bounds), violating
"never terminates abnormally". -/
theorem claim10_counterexample :
    lex [] 1 = .ok [] ∧ lexThenParse 1 [] = some .panicked :=
  ⟨rfl, rfl⟩

/-- Claim C10 as amended: constructing the parser terminates abnormally
precisely on the empty token list (the `tokens[0]` index in
`Parser::new`); on any nonempty token list construction succeeds. -/
theorem claim10_amended :
    (∀ (chars : List Char) (fuel : Nat),
      runParse fuel chars [] = .panicked)
    ∧ (∀ (chars : List Char) (ts : List Token),
      Parser.new chars ts = none ↔ ts = []) := by
  refine ⟨fun chars fuel => rfl, fun chars ts => ?_⟩
  cases ts with
  | nil => simp [Parser.new]
  | cons t ts' => simp [Parser.new]

/-! ### Claims C5 and C9: divergence of `infix_to_postfix`

The `Int` arm and the non-initial `Math` arm of the `infix_to_postfix`
token loop never advance the cursor, so any run that reaches them loops
forever.  The lemmas below show the loop exhausts every fuel from such a
state; the claims instantiate them on concrete inputs. -/

/-- From a loop state whose next token is an integer, `infix_to_postfix`'s
loop exhausts any fuel (the `Int` arm does not advance). -/
theorem infixGo_int_stuck :
    ∀ (fuel start tc : Nat) (is_start : Bool) (oq os ts' : List Token)
      (chars : List Char) (cur : Token) (sq pa : Bool) (pd : Nat)
      (v : Int) (sp : Span),
      infixGo fuel start (.loop is_start tc oq os
          ⟨chars, ⟨.int v, sp⟩ :: ts', cur, sq, pa, pd⟩)
        = .fuelOut := by
  intro fuel
  induction fuel with
  | zero => intros; rfl
  | succ f ih =>
    intro start tc is_start oq os ts' chars cur sq pa pd v sp
    exact ih start tc false oq os ts' chars ⟨.int v, sp⟩ sq pa pd v sp

/-- From a non-initial loop state whose next token is a math operator,
`infix_to_postfix`'s loop exhausts any fuel (the non-initial `Math` arm
does not advance). -/
theorem infixGo_math_stuck :
    ∀ (fuel start tc : Nat) (oq os ts' : List Token) (chars : List Char)
      (cur : Token) (sq pa : Bool) (pd : Nat) (op : Op) (sp : Span),
      infixGo fuel start (.loop false tc oq os
          ⟨chars, ⟨.math op, sp⟩ :: ts', cur, sq, pa, pd⟩)
        = .fuelOut := by
  intro fuel
  induction fuel with
  | zero => intros; rfl
  | succ f ih =>
    intro start tc oq os ts' chars cur sq pa pd op sp
    exact ih start tc oq os ts' chars ⟨.math op, sp⟩ sq pa pd op sp

/-- Unfolding the entry row of `infixGo` once. -/
theorem infixGo_entry (f start : Nat) (oq os : List Token) (p : Parser) :
    infixGo (f + 1) start (.entry oq os p)
      = if p.paren_depth + 1 > MAX_PAREN_DEPTH then
          .err (.tooManyParen p.input_chars
            ⟨start, p.current_token.span.endPos⟩)
        else
          infixGo f start (.loop true 0 oq os
            ⟨p.input_chars, p.tokens.tail, p.current_token,
              p.in_squiggly, p.in_paren, p.paren_depth + 1⟩) :=
  rfl

/-- Unfolding the loop row of `infixGo` once on an opening paren. -/
theorem infixGo_loop_lparen (g start : Nat) (is_start : Bool) (tc : Nat)
    (oq os : List Token) (chars : List Char) (sp2 : Span)
    (ts : List Token) (cur : Token) (sq pa : Bool) (pd : Nat) :
    infixGo (g + 1) start (.loop is_start tc oq os
        ⟨chars, ⟨.lParen, sp2⟩ :: ts, cur, sq, pa, pd⟩)
      = match infixGo g start (.entry oq os
          ⟨chars, ⟨.lParen, sp2⟩ :: ts, ⟨.lParen, sp2⟩, sq, pa, pd⟩) with
        | .ok (oq', os', p') => infixGo g start (.loop false tc oq' os' p')
        | .err e => .err e
        | .panicked => .panicked
        | .fuelOut => .fuelOut :=
  rfl

/-- From an entry whose token stream is a run of opening parens followed
by an integer, with the nesting staying within `MAX_PAREN_DEPTH`, the
recursion descends through the parens and then sticks on the integer,
exhausting any fuel. -/
theorem infixGo_nested_stuck (lps' : List Token) :
    ∀ (f start : Nat) (oq os : List Token) (chars : List Char)
      (lp cur : Token) (sq pa : Bool) (pd : Nat) (v : Int) (sp : Span)
      (rest : List Token),
      lp.kind = .lParen →
      (∀ t ∈ lps', t.kind = .lParen) →
      pd + 2 + lps'.length ≤ MAX_PAREN_DEPTH + 1 →
      infixGo f start (.entry oq os
          ⟨chars, lp :: (lps' ++ ⟨.int v, sp⟩ :: rest), cur, sq, pa, pd⟩)
        = .fuelOut := by
  induction lps' with
  | nil =>
    intro f start oq os chars lp cur sq pa pd v sp rest _ _ hd
    cases f with
    | zero => rfl
    | succ f' =>
      rw [infixGo_entry]
      rw [if_neg (by simp only [MAX_PAREN_DEPTH] at hd ⊢; omega)]
      exact infixGo_int_stuck f' start 0 true oq os _ chars cur sq pa
        (pd + 1) v sp
  | cons lp2 lps'' ih =>
    intro f start oq os chars lp cur sq pa pd v sp rest hlp hall hd
    obtain ⟨k2, sp2⟩ := lp2
    have hk2 : k2 = TokenKind.lParen := hall ⟨k2, sp2⟩ (by simp)
    subst hk2
    cases f with
    | zero => rfl
    | succ f' =>
      rw [infixGo_entry]
      rw [if_neg (by simp only [MAX_PAREN_DEPTH] at hd ⊢; simp at hd; omega)]
      show infixGo f' start (.loop true 0 oq os
          ⟨chars, ⟨.lParen, sp2⟩ :: (lps'' ++ ⟨.int v, sp⟩ :: rest),
            cur, sq, pa, pd + 1⟩)
        = .fuelOut
      cases f' with
      | zero => rfl
      | succ g =>
        rw [infixGo_loop_lparen]
        rw [ih g start oq os chars ⟨.lParen, sp2⟩ ⟨.lParen, sp2⟩
          sq pa (pd + 1) v sp rest rfl
          (fun t ht => hall t (List.mem_cons_of_mem _ ht))
          (by simp only [MAX_PAREN_DEPTH] at hd ⊢; simp at hd; omega)]

/-- Claim C5 (code bug): the pipeline is claimed always to terminate with
a success or a first error, but lexing and parsing `"(1+2+3)"` reaches the
non-advancing math-operator arm of `infix_to_postfix`'s loop after the
first operand-sign step, and the parse spins forever: the embedding
returns `fuelOut` for every fuel. -/
theorem claim5_divergence :
    ∀ fuel : Nat,
      lexThenParse fuel ['(', '1', '+', '2', '+', '3', ')']
        = some .fuelOut := by
  intro fuel
  match fuel with
  | 0 => rfl
  | 1 => rfl
  | 2 => rfl
  | (n + 3) =>
    have hi : infix_to_postfix (n + 2) 1 [] []
        ⟨['(', '1', '+', '2', '+', '3', ')'],
          [⟨.int 1, ⟨2, 2⟩⟩, ⟨.math .add, ⟨3, 3⟩⟩, ⟨.int 2, ⟨4, 4⟩⟩,
            ⟨.math .add, ⟨5, 5⟩⟩, ⟨.int 3, ⟨6, 6⟩⟩, ⟨.rParen, ⟨7, 7⟩⟩],
          ⟨.lParen, ⟨1, 1⟩⟩, false, true, 0⟩
        = .fuelOut :=
      infixGo_math_stuck n 1 0 [⟨.int 2, ⟨3, 4⟩⟩] []
        [⟨.int 3, ⟨6, 6⟩⟩, ⟨.rParen, ⟨7, 7⟩⟩]
        ['(', '1', '+', '2', '+', '3', ')']
        ⟨.math .add, ⟨5, 5⟩⟩ false true 1 .add ⟨5, 5⟩
    have hm : parse_t (n + 2)
        ⟨['(', '1', '+', '2', '+', '3', ')'],
          ⟨.lParen, ⟨1, 1⟩⟩ ::
            [⟨.int 1, ⟨2, 2⟩⟩, ⟨.math .add, ⟨3, 3⟩⟩, ⟨.int 2, ⟨4, 4⟩⟩,
              ⟨.math .add, ⟨5, 5⟩⟩, ⟨.int 3, ⟨6, 6⟩⟩, ⟨.rParen, ⟨7, 7⟩⟩],
          ⟨.lParen, ⟨1, 1⟩⟩, false, false, 0⟩
        = .fuelOut := by
      show (match infix_to_postfix (n + 2) 1 [] []
          ⟨['(', '1', '+', '2', '+', '3', ')'],
            [⟨.int 1, ⟨2, 2⟩⟩, ⟨.math .add, ⟨3, 3⟩⟩, ⟨.int 2, ⟨4, 4⟩⟩,
              ⟨.math .add, ⟨5, 5⟩⟩, ⟨.int 3, ⟨6, 6⟩⟩, ⟨.rParen, ⟨7, 7⟩⟩],
            ⟨.lParen, ⟨1, 1⟩⟩, false, true, 0⟩ with
        | .ok _ => POut.panicked
        | .err e => POut.err e
        | .panicked => POut.panicked
        | .fuelOut => POut.fuelOut) = POut.fuelOut
      rw [hi]
    have h0 : lexThenParse (n + 3) ['(', '1', '+', '2', '+', '3', ')']
        = some (parseLoop (n + 3)
            ⟨['(', '1', '+', '2', '+', '3', ')'],
              ⟨.lParen, ⟨1, 1⟩⟩ ::
                [⟨.int 1, ⟨2, 2⟩⟩, ⟨.math .add, ⟨3, 3⟩⟩, ⟨.int 2, ⟨4, 4⟩⟩,
                  ⟨.math .add, ⟨5, 5⟩⟩, ⟨.int 3, ⟨6, 6⟩⟩,
                  ⟨.rParen, ⟨7, 7⟩⟩],
              ⟨.lParen, ⟨1, 1⟩⟩, false, false, 0⟩ []) :=
      rfl
    rw [h0, parseLoop_cons (n + 2) ['(', '1', '+', '2', '+', '3', ')']
      ⟨.lParen, ⟨1, 1⟩⟩
      [⟨.int 1, ⟨2, 2⟩⟩, ⟨.math .add, ⟨3, 3⟩⟩, ⟨.int 2, ⟨4, 4⟩⟩,
        ⟨.math .add, ⟨5, 5⟩⟩, ⟨.int 3, ⟨6, 6⟩⟩, ⟨.rParen, ⟨7, 7⟩⟩]
      ⟨.lParen, ⟨1, 1⟩⟩ false false 0 []]
    rw [hm]

/-! ### Claim C9: the paren depth cap -/

/-- A run of `k` opening-paren tokens at consecutive positions starting at
`base`. -/
def lparensChain (k base : Nat) : List Token :=
  (List.range k).map (fun i => ⟨.lParen, ⟨base + i, base + i⟩⟩)

/-- A run of `k` closing-paren tokens at consecutive positions starting at
`base`. -/
def rparensChain (k base : Nat) : List Token :=
  (List.range k).map (fun i => ⟨.rParen, ⟨base + i, base + i⟩⟩)

/-- Every token of an `lparensChain` is an opening paren. -/
theorem mem_lparensChain (k base : Nat) :
    ∀ t ∈ lparensChain k base, t.kind = .lParen := by
  intro t ht
  simp only [lparensChain, List.mem_map, List.mem_range] at ht
  obtain ⟨i, _, rfl⟩ := ht
  rfl

/-- The input `"4+4"` wrapped in 70 levels of parentheses. -/
def chars70 : List Char :=
  List.replicate 70 '(' ++ '4' :: '+' :: '4' :: List.replicate 70 ')'

/-- The input `"4+4"` wrapped in 71 levels of parentheses. -/
def chars71 : List Char :=
  List.replicate 71 '(' ++ '4' :: '+' :: '4' :: List.replicate 71 ')'

/-- The token list `chars70` lexes to, bridged to parser tokens. -/
def toks70 : List Token :=
  lparensChain 70 1 ++ ⟨.int 4, ⟨71, 71⟩⟩ :: ⟨.math .add, ⟨72, 72⟩⟩ ::
    ⟨.int 4, ⟨73, 73⟩⟩ :: rparensChain 70 74

set_option maxRecDepth 200000 in
/-- Claim C9 (code bug): the claim says nesting beyond 69 levels raises
`TooManyParen`, but at exactly 70 levels the recursion consumes all 70
parens while only reaching depth 69 and then sticks on the non-advancing
`Int` arm, diverging (`fuelOut` at every fuel); only 71 or more levels
reach the depth check, and the span then reported starts at the
expression's first paren, not at the first paren past the cap. -/
theorem claim9_depth_cap :
    (∀ fuel : Nat, lexThenParse fuel chars70 = some .fuelOut)
    ∧ lexThenParse 500 chars71
        = some (.err (.tooManyParen chars71 ⟨1, 71⟩)) := by
  constructor
  · intro fuel
    match fuel with
    | 0 => rfl
    | (f + 1) =>
      have hi : infix_to_postfix f 1 [] []
          ⟨chars70, toks70.tail, ⟨.lParen, ⟨1, 1⟩⟩, false, true, 0⟩
          = .fuelOut := by
        refine infixGo_nested_stuck (lparensChain 68 3) f 1 [] [] chars70
          ⟨.lParen, ⟨2, 2⟩⟩ ⟨.lParen, ⟨1, 1⟩⟩ false true 0 4 ⟨71, 71⟩
          (⟨.math .add, ⟨72, 72⟩⟩ :: ⟨.int 4, ⟨73, 73⟩⟩ ::
            rparensChain 70 74)
          rfl (mem_lparensChain 68 3) (by simp [lparensChain, MAX_PAREN_DEPTH])
      have hm : parse_t f
          ⟨chars70, ⟨.lParen, ⟨1, 1⟩⟩ :: toks70.tail,
            ⟨.lParen, ⟨1, 1⟩⟩, false, false, 0⟩
          = .fuelOut := by
        show (match infix_to_postfix f 1 [] []
            ⟨chars70, toks70.tail, ⟨.lParen, ⟨1, 1⟩⟩, false, true, 0⟩ with
          | .ok _ => POut.panicked
          | .err e => POut.err e
          | .panicked => POut.panicked
          | .fuelOut => POut.fuelOut) = POut.fuelOut
        rw [hi]
      have h0 : lexThenParse (f + 1) chars70
          = some (parseLoop (f + 1)
              ⟨chars70, ⟨.lParen, ⟨1, 1⟩⟩ :: toks70.tail,
                ⟨.lParen, ⟨1, 1⟩⟩, false, false, 0⟩ []) :=
        rfl
      rw [h0, parseLoop_cons f chars70 ⟨.lParen, ⟨1, 1⟩⟩ toks70.tail
        ⟨.lParen, ⟨1, 1⟩⟩ false false 0 []]
      rw [hm]
  · rfl

/-! ### Claim C4: range materialization bounds -/

/-- Every value generated by an exclusive upward range is strictly below
the end. -/
theorem genLoop_excl_up_lt (b s : Int) :
    ∀ (fuel : Nat) (cur : Int), ∀ x ∈ genLoop fuel cur b s false true,
      x < b := by
  intro fuel
  induction fuel with
  | zero => intro cur x hx; simp [genLoop] at hx
  | succ f ih =>
    intro cur x hx
    have hx' : x ∈ (if cur < b then
        cur :: genLoop f (cur + s) b s false true else []) := hx
    by_cases hlt : cur < b
    · rw [if_pos hlt] at hx'
      rcases List.mem_cons.mp hx' with rfl | hx''
      · exact hlt
      · exact ih (cur + s) x hx''
    · rw [if_neg hlt] at hx'
      simp at hx'

/-- An inclusive upward range with positive step and enough fuel ends
exactly at `b` when `b` is reachable from `cur` by whole steps. -/
theorem genLoop_incl_up_last (b s : Int) (hs : 1 ≤ s) :
    ∀ (fuel : Nat) (cur : Int), cur ≤ b → (b - cur).toNat < fuel →
      ((genLoop fuel cur b s true true).getLast? = some b
        ↔ ∃ k : Nat, cur + s * k = b) := by
  intro fuel
  induction fuel with
  | zero => intro cur _ hf; exact absurd hf (Nat.not_lt_zero _)
  | succ f ih =>
    intro cur hcb hf
    have hcond : genLoop (f + 1) cur b s true true
        = cur :: genLoop f (cur + s) b s true true := by
      have h1 : genLoop (f + 1) cur b s true true
          = if cur ≤ b then cur :: genLoop f (cur + s) b s true true
            else [] := rfl
      rw [h1, if_pos hcb]
    rw [hcond]
    by_cases hnext : cur + s ≤ b
    · have hf' : (b - (cur + s)).toNat < f := by omega
      have htail := ih (cur + s) hnext hf'
      have hne : genLoop f (cur + s) b s true true ≠ [] := by
        cases f with
        | zero => exact absurd hf' (Nat.not_lt_zero _)
        | succ g =>
          have h1 : genLoop (g + 1) (cur + s) b s true true
              = if cur + s ≤ b then
                  (cur + s) :: genLoop g (cur + s + s) b s true true
                else [] := rfl
          rw [h1, if_pos hnext]
          exact List.cons_ne_nil _ _
      obtain ⟨y, ys, hys⟩ := List.exists_cons_of_ne_nil hne
      rw [hys, List.getLast?_cons_cons, ← hys, htail]
      constructor
      · rintro ⟨k, hk⟩
        refine ⟨k + 1, ?_⟩
        have hexp : s * ((k : Int) + 1) = s * k + s := by ring
        push_cast
        rw [hexp]
        linarith
      · rintro ⟨k, hk⟩
        cases k with
        | zero =>
          exfalso
          simp at hk
          omega
        | succ k' =>
          refine ⟨k', ?_⟩
          have hexp : s * ((k' : Int) + 1) = s * k' + s := by ring
          push_cast at hk
          rw [hexp] at hk
          linarith
    · have htail0 : genLoop f (cur + s) b s true true = [] := by
        cases f with
        | zero => rfl
        | succ g =>
          have h1 : genLoop (g + 1) (cur + s) b s true true
              = if cur + s ≤ b then
                  (cur + s) :: genLoop g (cur + s + s) b s true true
                else [] := rfl
          rw [h1, if_neg hnext]
      rw [htail0]
      simp only [List.getLast?_singleton, Option.some_inj]
      constructor
      · intro h; exact ⟨0, by simpa using h⟩
      · rintro ⟨k, hk⟩
        cases k with
        | zero => simpa using hk
        | succ k' =>
          exfalso
          have hk0 : (0 : Int) ≤ (k' : Int) := Int.natCast_nonneg _
          have hexp : s * (((k' : Nat) + 1 : Nat) : Int)
              = s * k' + s := by push_cast; ring
          rw [hexp] at hk
          nlinarith

/-- A downward generation run is the negation-mirror of an upward one. -/
theorem genLoop_down_eq :
    ∀ (fuel : Nat) (cur b s : Int) (incl : Bool),
      genLoop fuel cur b s incl false
        = (genLoop fuel (-cur) (-b) (-s) incl true).map (fun x => -x) := by
  intro fuel
  induction fuel with
  | zero => intros; rfl
  | succ f ih =>
    intro cur b s incl
    have h1 : genLoop (f + 1) cur b s incl false
        = if (if incl then b ≤ cur else b < cur) then
            cur :: genLoop f (cur + s) b s incl false
          else [] := by
      cases incl <;> rfl
    have h2 : genLoop (f + 1) (-cur) (-b) (-s) incl true
        = if (if incl then -cur ≤ -b else -cur < -b) then
            -cur :: genLoop f (-cur + -s) (-b) (-s) incl true
          else [] := by
      cases incl <;> rfl
    have hc : (if incl then -cur ≤ -b else -cur < -b)
        = (if incl then b ≤ cur else b < cur) := by
      cases incl <;> simp [neg_le_neg_iff, neg_lt_neg_iff]
    rw [h1, h2]
    simp only [hc]
    by_cases hcond : (if incl then b ≤ cur else b < cur)
    · rw [if_pos hcond, if_pos hcond]
      rw [List.map_cons, neg_neg]
      rw [show -cur + -s = -(cur + s) by ring]
      rw [ih (cur + s) b s incl]
    · rw [if_neg hcond, if_neg hcond]
      rfl

/-- Claim C4 (spec-modelled): for an exclusive range the materialized
sequence never contains the end value, and for an inclusive range the
last materialized value equals the end exactly when the end is reachable
from the start by whole steps; stated for any step whose sign agrees with
the range's direction (the default step is the ±1 case). -/
theorem claim4_materialize_bounds (a b s : Int)
    (hs : if a ≤ b then 1 ≤ s else s ≤ -1) :
    b ∉ materialize a b s false
    ∧ ((materialize a b s true).getLast? = some b
        ↔ ∃ k : Nat, a + s * k = b) := by
  by_cases hab : a ≤ b
  · rw [if_pos hab] at hs
    constructor
    · intro hmem
      rw [materialize, if_pos hab] at hmem
      exact lt_irrefl b (genLoop_excl_up_lt b s _ a b hmem)
    · rw [materialize, if_pos hab]
      exact genLoop_incl_up_last b s hs _ a hab (by omega)
  · rw [if_neg hab] at hs
    have hba : b < a := lt_of_not_le hab
    constructor
    · intro hmem
      rw [materialize, if_neg hab, genLoop_down_eq] at hmem
      rw [List.mem_map] at hmem
      obtain ⟨x, hx, hxb⟩ := hmem
      have hxval : x = -b := by omega
      subst hxval
      exact lt_irrefl (-b) (genLoop_excl_up_lt (-b) (-s) _ (-a) (-b) hx)
    · rw [materialize, if_neg hab, genLoop_down_eq, List.getLast?_map]
      have hlast := genLoop_incl_up_last (-b) (-s) (by omega)
        ((a - b).toNat + 1) (-a) (by omega) (by omega)
      constructor
      · intro h
        have hsome : (genLoop ((a - b).toNat + 1) (-a) (-b) (-s)
            true true).getLast? = some (-b) := by
          rcases ho : (genLoop ((a - b).toNat + 1) (-a) (-b) (-s)
              true true).getLast? with _ | y
          · rw [ho] at h; simp at h
          · rw [ho] at h
            simp at h
            congr 1
            omega
        obtain ⟨k, hk⟩ := hlast.mp hsome
        exact ⟨k, by linarith⟩
      · rintro ⟨k, hk⟩
        have : (genLoop ((a - b).toNat + 1) (-a) (-b) (-s)
            true true).getLast? = some (-b) :=
          hlast.mpr ⟨k, by linarith⟩
        rw [this]
        simp

/-- Witness for C4 at the spec's own example `\x7b1..=5, s:2\x7d` /
`\x7b1..5, s:2\x7d`: exclusive materialization of 1..5 by 2 never contains
5, inclusive materialization ends at exactly 5 (reachable in two whole
steps). -/
theorem claim4_witness :
    5 ∉ materialize 1 5 2 false
    ∧ (materialize 1 5 2 true).getLast? = some 5 :=
  ⟨(claim4_materialize_bounds 1 5 2 (by norm_num)).1,
   (claim4_materialize_bounds 1 5 2 (by norm_num)).2.mpr
     ⟨2, by norm_num⟩⟩

/-! ### Claim C6: whitespace handling -/

/-- Whether a lexer token is the `Space` token. -/
def isSpaceTok : LToken → Bool
  | .space _ => true
  | _ => false

/-- Counterexample to claim C6 as stated: lexing a single space yields a
`Space` token — whitespace is tokenized, not skipped (`lexer.rs` pushes
`Token::Space` for every `' '`). -/
theorem claim6_counterexample :
    lex [' '] 1 = .ok [.space 1] :=
  rfl

/-- Splitting characters accepted inside runs never hide a space. -/
theorem count_space_dropWhile (pchar : Char → Bool)
    (h : ∀ x, pchar x = true → x ≠ ' ') (l : List Char) :
    (l.dropWhile pchar).count ' ' = l.count ' ' := by
  conv_rhs => rw [← List.takeWhile_append_dropWhile (p := pchar) (l := l)]
  rw [List.count_append]
  have h0 : (l.takeWhile pchar).count ' ' = 0 := by
    rw [List.count_eq_zero]
    intro hmem
    exact h ' ' (List.mem_takeWhile_imp hmem) rfl
  omega

/-- An `Except.map` that returns `ok` comes from an `ok`. -/
theorem except_map_ok {α β ε : Type} (g : α → β) (m : Except ε α)
    (b : β) (h : Except.map g m = .ok b) : ∃ a, m = .ok a ∧ b = g a := by
  cases m with
  | error e => simp [Except.map] at h
  | ok a =>
    refine ⟨a, rfl, ?_⟩
    simpa [Except.map] using h.symm

/-- One step of the lexer loop on a nonempty input, by character class
(definitional unfolding of `lexAux`, stated so the class dispatch can be
case-split). -/
theorem lexAux_cons (f : Nat) (c : Char) (cs : List Char) (pos : Nat) :
    lexAux (f + 1) (c :: cs) pos
      = match charClass c with
        | .space => (LToken.space pos :: ·) <$> lexAux f cs (pos + 1)
        | .comma => (LToken.comma pos :: ·) <$> lexAux f cs (pos + 1)
        | .digit =>
          if digitsToNat ((c :: cs.takeWhile isNumChar).filter
              (fun x => x ≠ '_')) ≤ u32Max then
            (LToken.int (digitsToNat ((c :: cs.takeWhile isNumChar).filter
                  (fun x => x ≠ '_')))
                (c :: cs.takeWhile isNumChar) pos
                (pos + (c :: cs.takeWhile isNumChar).length - 1) :: ·) <$>
              lexAux f (cs.dropWhile isNumChar)
                (pos + (c :: cs.takeWhile isNumChar).length)
          else
            .error (.malformedNumber
              ((c :: cs.takeWhile isNumChar).filter (fun x => x ≠ '_'))
              pos (pos + (c :: cs.takeWhile isNumChar).length - 1))
        | .dot =>
          match scanRangeRun '.' 0 false (c :: cs.takeWhile isRangeChar) with
          | .error _ => .error (.unexpectedEqual pos)
          | .ok (dots, incl) =>
            if dots ≠ 2 then
              .error (.invalidRange pos
                (pos + (c :: cs.takeWhile isRangeChar).length - 1))
            else if incl then
              (LToken.rngInclusive pos
                  (pos + (c :: cs.takeWhile isRangeChar).length - 1) :: ·) <$>
                lexAux f (cs.dropWhile isRangeChar)
                  (pos + (c :: cs.takeWhile isRangeChar).length)
            else
              (LToken.rngExclusive pos
                  (pos + (c :: cs.takeWhile isRangeChar).length - 1) :: ·) <$>
                lexAux f (cs.dropWhile isRangeChar)
                  (pos + (c :: cs.takeWhile isRangeChar).length)
        | .sOrM =>
          match cs with
          | ':' :: cs' =>
            if c = 's' then
              (LToken.rngStep pos (pos + 1) :: ·) <$>
                lexAux f cs' (pos + 2)
            else
              (LToken.rngMutation pos (pos + 1) :: ·) <$>
                lexAux f cs' (pos + 2)
          | _ => .error (.missingColon c pos)
        | .opAdd => (LToken.mathAdd pos :: ·) <$> lexAux f cs (pos + 1)
        | .opSub => (LToken.mathSub pos :: ·) <$> lexAux f cs (pos + 1)
        | .opMul => (LToken.mathMul pos :: ·) <$> lexAux f cs (pos + 1)
        | .opDiv => (LToken.mathDiv pos :: ·) <$> lexAux f cs (pos + 1)
        | .opPow => (LToken.mathPow pos :: ·) <$> lexAux f cs (pos + 1)
        | .parenL => (LToken.lParen pos :: ·) <$> lexAux f cs (pos + 1)
        | .parenR => (LToken.rParen pos :: ·) <$> lexAux f cs (pos + 1)
        | .squigglyL =>
          (LToken.lSquiggly pos :: ·) <$> lexAux f cs (pos + 1)
        | .squigglyR =>
          (LToken.rSquiggly pos :: ·) <$> lexAux f cs (pos + 1)
        | .other => .error (.invalidToken c pos) :=
  rfl

/-- A character classified as anything but `space` is not `' '`. -/
theorem charClass_ne_space {c : Char} (h : charClass c ≠ .space) :
    c ≠ ' ' := by
  intro hc
  subst hc
  exact h rfl

/-- Only `' '` is classified as `space`. -/
theorem charClass_eq_space {c : Char} (h : charClass c = .space) :
    c = ' ' := by
  by_contra hc
  unfold charClass at h
  rw [if_neg hc] at h
  by_cases h2 : c = ','
  · rw [if_pos h2] at h; exact CharClass.noConfusion h
  rw [if_neg h2] at h
  by_cases h3 : c.isDigit = true
  · rw [if_pos h3] at h; exact CharClass.noConfusion h
  rw [if_neg h3] at h
  by_cases h4 : c = '.'
  · rw [if_pos h4] at h; exact CharClass.noConfusion h
  rw [if_neg h4] at h
  by_cases h5 : c = 's' ∨ c = 'm'
  · rw [if_pos h5] at h; exact CharClass.noConfusion h
  rw [if_neg h5] at h
  by_cases h6 : c = '+'
  · rw [if_pos h6] at h; exact CharClass.noConfusion h
  rw [if_neg h6] at h
  by_cases h7 : c = '-'
  · rw [if_pos h7] at h; exact CharClass.noConfusion h
  rw [if_neg h7] at h
  by_cases h8 : c = '*'
  · rw [if_pos h8] at h; exact CharClass.noConfusion h
  rw [if_neg h8] at h
  by_cases h9 : c = '/'
  · rw [if_pos h9] at h; exact CharClass.noConfusion h
  rw [if_neg h9] at h
  by_cases h10 : c = '^'
  · rw [if_pos h10] at h; exact CharClass.noConfusion h
  rw [if_neg h10] at h
  by_cases h11 : c = '('
  · rw [if_pos h11] at h; exact CharClass.noConfusion h
  rw [if_neg h11] at h
  by_cases h12 : c = ')'
  · rw [if_pos h12] at h; exact CharClass.noConfusion h
  rw [if_neg h12] at h
  by_cases h13 : c = '{'
  · rw [if_pos h13] at h; exact CharClass.noConfusion h
  rw [if_neg h13] at h
  by_cases h14 : c = '}'
  · rw [if_pos h14] at h; exact CharClass.noConfusion h
  rw [if_neg h14] at h
  exact CharClass.noConfusion h

/-- Fuel-level form of the amended C6: whenever the lexer loop succeeds,
the token list contains exactly one `Space` token per `' '` character of
the input. -/
theorem lexAux_space_count :
    ∀ (fuel : Nat) (cs : List Char) (pos : Nat) (ts : List LToken),
      cs.length ≤ fuel → lexAux fuel cs pos = .ok ts →
      ts.countP isSpaceTok = cs.count ' ' := by
  intro fuel
  induction fuel with
  | zero =>
    intro cs pos ts hle hlex
    rw [List.length_eq_zero.mp (Nat.le_zero.mp hle)] at hlex ⊢
    cases hlex
    rfl
  | succ f ih =>
    intro cs pos ts hle hlex
    cases cs with
    | nil =>
      cases hlex
      rfl
    | cons c cs' =>
      have hle' : cs'.length ≤ f := Nat.le_of_succ_le_succ hle
      have hnum : ∀ x, isNumChar x = true → x ≠ ' ' := by
        intro x hx hx'
        subst hx'
        simp [isNumChar] at hx
      have hrng : ∀ x, isRangeChar x = true → x ≠ ' ' := by
        intro x hx hx'
        subst hx'
        simp [isRangeChar] at hx
      rw [lexAux_cons] at hlex
      split at hlex
      case _ heq =>
        -- space
        obtain ⟨ts', hts', rfl⟩ := except_map_ok _ _ _ hlex
        have hc := charClass_eq_space heq
        subst hc
        simp [List.countP_cons, List.count_cons, isSpaceTok,
          ih cs' (pos + 1) ts' hle' hts']
      case _ heq =>
        -- comma
        obtain ⟨ts', hts', rfl⟩ := except_map_ok _ _ _ hlex
        have hcne : c ≠ ' ' := charClass_ne_space (by rw [heq]; decide)
        simp [List.countP_cons, List.count_cons, isSpaceTok, hcne,
          ih cs' (pos + 1) ts' hle' hts']
      case _ heq =>
        -- digits
        have hcne : c ≠ ' ' := charClass_ne_space (by rw [heq]; decide)
        split_ifs at hlex
        · obtain ⟨ts', hts', rfl⟩ := except_map_ok _ _ _ hlex
          have hrest := ih (cs'.dropWhile isNumChar) _ ts'
            (Nat.le_trans (length_dropWhile_le' _ _) hle') hts'
          simp [List.countP_cons, List.count_cons, isSpaceTok, hcne,
            hrest, count_space_dropWhile isNumChar hnum cs']
      case _ heq =>
        -- range run
        have hcne : c ≠ ' ' := charClass_ne_space (by rw [heq]; decide)
        rcases hscan : scanRangeRun '.' 0 false
            (c :: cs'.takeWhile isRangeChar) with _ | ⟨dots, incl⟩
        · simp only [hscan] at hlex
          cases hlex
        · simp only [hscan] at hlex
          split_ifs at hlex with hdots hincl
          all_goals
            obtain ⟨ts', hts', rfl⟩ := except_map_ok _ _ _ hlex
          all_goals
            have hrest := ih (cs'.dropWhile isRangeChar) _ ts'
              (Nat.le_trans (length_dropWhile_le' _ _) hle') hts'
          all_goals
            simp [List.countP_cons, List.count_cons, isSpaceTok, hcne,
              hrest, count_space_dropWhile isRangeChar hrng cs']
      case _ heq =>
        -- s / m markers
        have hcne : c ≠ ' ' := charClass_ne_space (by rw [heq]; decide)
        split at hlex
        · rename_i cs''
          split_ifs at hlex with hcs
          all_goals
            obtain ⟨ts', hts', rfl⟩ := except_map_ok _ _ _ hlex
          all_goals
            have hlen : cs''.length ≤ f := by
              simp only [List.length_cons] at hle'
              omega
          all_goals
            have hrest := ih cs'' _ ts' hlen hts'
          all_goals
            simp [List.countP_cons, List.count_cons, isSpaceTok, hcne,
              hrest]
        · cases hlex
      all_goals
        first
        | cases hlex
        | (rename_i heq
           obtain ⟨ts', hts', rfl⟩ := except_map_ok _ _ _ hlex
           have hcne : c ≠ ' ' := charClass_ne_space (by rw [heq]; decide)
           simp [List.countP_cons, List.count_cons, isSpaceTok, hcne,
             ih cs' (pos + 1) ts' hle' hts'])

/-- Claim C6 as amended: the lexer does not skip whitespace; instead, for
every input on which `lex` succeeds, the token list carries exactly one
`Space` token per `' '` character of the input (every other character
class contributes none). -/
theorem claim6_amended (cs : List Char) (pos : Nat) (ts : List LToken)
    (h : lex cs pos = .ok ts) :
    ts.countP isSpaceTok = cs.count ' ' :=
  lexAux_space_count cs.length cs pos ts (Nat.le_refl _) h

/-- Witness for the amended C6 on the single-space input. -/
theorem claim6_witness :
    List.countP isSpaceTok [LToken.space 1] = List.count ' ' [' '] :=
  claim6_amended [' '] 1 [LToken.space 1] rfl

end Seq2
